import Mathlib

/-!
# Verification of `teuthology/suite.py`

A shallow embedding, in Lean 4, of the combination-generation, job-dispatch
and result-aggregation logic of `teuthology/suite.py` (the `main`, `ls` and
`results` entry points), together with theorems settling the specification
claims about that code.

Conventions of the embedding:
* Python strings are Lean `String`s; all character-level operations are
  defined here on `List Char` (via `String.data`) so that every definition
  evaluates inside the kernel.
* `sorted(...)` (Python's stable sort on strings / tuples of strings,
  comparing code points lexicographically) is modelled by a stable insertion
  sort `insSort` over a boolean comparison.
* A directory listing is a `List` of entry names (with payloads); a
  collection directory maps each entry name to `some contents` when the
  entry is a subdirectory, `none` when it is a plain file.
* `itertools.product` is `cartProd` below (last sequence varying fastest).
* The external scheduler invocation (`subprocess.check_call`) is modelled by
  the argument vector (`List String`) the code builds for it; a run is the
  list of such vectors, in dispatch order.
-/

namespace Suite

/-! ## Character-level string utilities -/

/-- Python `s.startswith('.')`: the first character is `'.'`. -/
def isHidden (s : String) : Bool :=
  match s.data with
  | [] => false
  | c :: _ => c = '.'

/-- Suffix test on character lists (`list.drop`-based, kernel-reducible). -/
def sufTest (suf l : List Char) : Bool :=
  suf.length ≤ l.length && l.drop (l.length - suf.length) = suf

/-- Python `name.endswith('.yaml')`. -/
def endsWithYaml (s : String) : Bool :=
  sufTest ".yaml".data s.data

/-- Lexicographic comparison (strict) on character lists by code point,
matching Python's string `<`. -/
def charsLt : List Char → List Char → Bool
  | [], [] => false
  | [], _ :: _ => true
  | _ :: _, [] => false
  | a :: as, b :: bs =>
    if a.val.toNat < b.val.toNat then true
    else if b.val.toNat < a.val.toNat then false
    else charsLt as bs

/-- Lexicographic `≤` on character lists by code point. -/
def charsLe (a b : List Char) : Bool :=
  charsLt a b || a = b

/-- Python string `≤` (code-point lexicographic). -/
def strLe (a b : String) : Bool :=
  charsLe a.data b.data

/-- Tuple comparison on `(path, name)` string pairs: Python's `sorted` on
2-tuples of strings. -/
def pairLe (a b : String × String) : Bool :=
  charsLt a.1.data b.1.data ||
    (a.1.data = b.1.data && charsLe a.2.data b.2.data)

/-- Python `'sep'.join(l)`. -/
def joinSep (sep : String) : List String → String
  | [] => ""
  | [a] => a
  | a :: rest => a ++ sep ++ joinSep sep rest

/-- Characters after the last `'/'` of the list (whole list when there is
no `'/'`). -/
def afterLastSlash (l : List Char) : List Char :=
  l.foldl (fun acc c => if c = '/' then [] else acc ++ [c]) []

/-- Python `os.path.basename`: the part of the path after the last `'/'`. -/
def basename (s : String) : String :=
  String.mk (afterLastSlash s.data)

/-- Split a character list on a separator character. -/
def splitOnChar (sep : Char) : List Char → List (List Char)
  | [] => [[]]
  | c :: rest =>
    match splitOnChar sep rest with
    | [] => if c = sep then [[], []] else [[c]]
    | g :: gs => if c = sep then [] :: g :: gs else (c :: g) :: gs

/-- Interleave a separator character between groups. -/
def joinChar (sep : Char) : List (List Char) → List Char
  | [] => []
  | [g] => g
  | g :: rest => g ++ sep :: joinChar sep rest

/-- Modelled from the spec: `safepath.munge` (the PathSanitizer of §4.1) is
imported by `suite.py` but its source is not part of this repository.  Per
the spec it normalizes path components that escape a base directory (such
as `..`), collapses redundant separators, and yields a deterministic name
safe for use as a path. We drop empty and `.` components, neutralize `..`
components, and rejoin with single separators. -/
def munge (s : String) : String :=
  String.mk (joinChar '/'
    (((splitOnChar '/' s.data).filter
        (fun g => g ≠ [] && g ≠ ['.'])).map
      (fun g => if g = ['.', '.'] then ['_'] else g)))

/-! ## Stable sort (model of Python `sorted`) -/

/-- Insert into a sorted list, keeping the new (earlier-in-input) element
before elements it compares `le` to — stable, like Python's sort. -/
def insSorted (le : α → α → Bool) (x : α) : List α → List α
  | [] => [x]
  | y :: ys => if le x y then x :: y :: ys else y :: insSorted le x ys

/-- Stable insertion sort: the model of Python `sorted`. -/
def insSort (le : α → α → Bool) : List α → List α
  | [] => []
  | x :: xs => insSorted le x (insSort le xs)

theorem insSorted_perm (le : α → α → Bool) (x : α) (l : List α) :
    List.Perm (insSorted le x l) (x :: l) := by
  induction l with
  | nil => simp [insSorted]
  | cons y ys ih =>
    simp only [insSorted]
    split
    · exact List.Perm.refl _
    · exact (List.Perm.cons y ih).trans (List.Perm.swap x y ys)

theorem insSort_perm (le : α → α → Bool) (l : List α) :
    List.Perm (insSort le l) l := by
  induction l with
  | nil => simp [insSort]
  | cons x xs ih =>
    exact (insSorted_perm le x (insSort le xs)).trans (List.Perm.cons x ih)

theorem mem_insSorted (le : α → α → Bool) (x : α) (l : List α) (b : α) :
    b ∈ insSorted le x l ↔ b = x ∨ b ∈ l := by
  have := (insSorted_perm le x l).mem_iff (a := b)
  simpa using this

theorem insSorted_pairwise (le : α → α → Bool)
    (htrans : ∀ a b c, le a b = true → le b c = true → le a c = true)
    (htot : ∀ a b, le a b = true ∨ le b a = true) (x : α) (l : List α)
    (hl : l.Pairwise (fun a b => le a b = true)) :
    (insSorted le x l).Pairwise (fun a b => le a b = true) := by
  induction l with
  | nil => simp [insSorted]
  | cons y ys ih =>
    rcases hl with _ | ⟨hy, hys⟩
    simp only [insSorted]
    split
    · rename_i hxy
      refine List.Pairwise.cons ?_ (List.Pairwise.cons hy hys)
      intro b hb
      rcases List.mem_cons.mp hb with rfl | hb
      · exact hxy
      · exact htrans x y b hxy (hy b hb)
    · rename_i hxy
      refine List.Pairwise.cons ?_ (ih hys)
      intro b hb
      rcases (mem_insSorted le x ys b).mp hb with rfl | hb
      · rcases htot b y with h | h
        · exact absurd h hxy
        · exact h
      · exact hy b hb

theorem insSort_pairwise (le : α → α → Bool)
    (htrans : ∀ a b c, le a b = true → le b c = true → le a c = true)
    (htot : ∀ a b, le a b = true ∨ le b a = true) (l : List α) :
    (insSort le l).Pairwise (fun a b => le a b = true) := by
  induction l with
  | nil => simp [insSort]
  | cons x xs ih => exact insSorted_pairwise le htrans htot x _ ih

/-! ## Order facts about the lexicographic comparisons -/

theorem charsLt_trans : ∀ {a b c : List Char},
    charsLt a b = true → charsLt b c = true → charsLt a c = true
  | [], [], _, h1, _ => by simp [charsLt] at h1
  | [], _ :: _, [], _, h2 => by simp [charsLt] at h2
  | [], _ :: _, _ :: _, _, _ => rfl
  | _ :: _, [], _, h1, _ => by simp [charsLt] at h1
  | _ :: _, _ :: _, [], _, h2 => by simp [charsLt] at h2
  | a :: as, b :: bs, c :: cs, h1, h2 => by
    simp only [charsLt] at h1 h2 ⊢
    by_cases hab : a.val.toNat < b.val.toNat
    · by_cases hbc : b.val.toNat < c.val.toNat
      · simp [Nat.lt_trans hab hbc]
      · simp only [if_neg hbc] at h2
        by_cases hcb : c.val.toNat < b.val.toNat
        · simp [hcb] at h2
        · have : b.val.toNat = c.val.toNat :=
            Nat.le_antisymm (Nat.le_of_not_lt hcb) (Nat.le_of_not_lt hbc)
          simp [this ▸ hab]
    · simp only [if_neg hab] at h1
      by_cases hba : b.val.toNat < a.val.toNat
      · simp [hba] at h1
      · simp only [if_neg hba] at h1
        have heq : a.val.toNat = b.val.toNat :=
          Nat.le_antisymm (Nat.le_of_not_lt hba) (Nat.le_of_not_lt hab)
        by_cases hbc : b.val.toNat < c.val.toNat
        · simp [heq ▸ hbc]
        · simp only [if_neg hbc] at h2
          by_cases hcb : c.val.toNat < b.val.toNat
          · simp [hcb] at h2
          · simp only [if_neg hcb] at h2
            have heq2 : b.val.toNat = c.val.toNat :=
              Nat.le_antisymm (Nat.le_of_not_lt hcb) (Nat.le_of_not_lt hbc)
            have hac : ¬ a.val.toNat < c.val.toNat := by omega
            have hca : ¬ c.val.toNat < a.val.toNat := by omega
            simp [if_neg hac, if_neg hca, charsLt_trans h1 h2]

theorem charsLt_trichotomy : ∀ (a b : List Char),
    charsLt a b = true ∨ charsLt b a = true ∨ a = b
  | [], [] => Or.inr (Or.inr rfl)
  | [], _ :: _ => Or.inl rfl
  | _ :: _, [] => Or.inr (Or.inl rfl)
  | a :: as, b :: bs => by
    by_cases hab : a.val.toNat < b.val.toNat
    · exact Or.inl (by simp [charsLt, hab])
    · by_cases hba : b.val.toNat < a.val.toNat
      · exact Or.inr (Or.inl (by simp [charsLt, hba]))
      · have heqv : a.val.toNat = b.val.toNat :=
          Nat.le_antisymm (Nat.le_of_not_lt hba) (Nat.le_of_not_lt hab)
        have heq : a = b := Char.ext (UInt32.ext heqv)
        rcases charsLt_trichotomy as bs with h | h | h
        · exact Or.inl (by
            simp only [charsLt, if_neg hab, if_neg hba]; exact h)
        · exact Or.inr (Or.inl (by
            simp only [charsLt, if_neg hba, if_neg hab]; exact h))
        · exact Or.inr (Or.inr (by rw [heq, h]))

theorem charsLe_total (a b : List Char) :
    charsLe a b = true ∨ charsLe b a = true := by
  rcases charsLt_trichotomy a b with h | h | rfl
  · exact Or.inl (by simp [charsLe, h])
  · exact Or.inr (by simp [charsLe, h])
  · exact Or.inl (by simp [charsLe])

theorem charsLe_trans {a b c : List Char}
    (h1 : charsLe a b = true) (h2 : charsLe b c = true) :
    charsLe a c = true := by
  simp only [charsLe, Bool.or_eq_true, decide_eq_true_eq] at h1 h2 ⊢
  rcases h1 with h1 | rfl
  · rcases h2 with h2 | rfl
    · exact Or.inl (charsLt_trans h1 h2)
    · exact Or.inl h1
  · exact h2

theorem strLe_trans {a b c : String}
    (h1 : strLe a b = true) (h2 : strLe b c = true) : strLe a c = true :=
  charsLe_trans h1 h2

theorem strLe_total (a b : String) :
    strLe a b = true ∨ strLe b a = true :=
  charsLe_total a.data b.data

theorem charsLt_irrefl (a : List Char) : charsLt a a = false := by
  induction a with
  | nil => rfl
  | cons c cs ih => simp [charsLt, ih]

theorem charsLt_not_both {a b : List Char}
    (h1 : charsLt a b = true) (h2 : charsLt b a = true) : False := by
  have := charsLt_trans h1 h2
  rw [charsLt_irrefl] at this
  cases this

theorem pairLe_trans {a b c : String × String}
    (h1 : pairLe a b = true) (h2 : pairLe b c = true) :
    pairLe a c = true := by
  simp only [pairLe, Bool.or_eq_true, Bool.and_eq_true,
    decide_eq_true_eq] at h1 h2 ⊢
  rcases h1 with h1 | ⟨he1, hl1⟩
  · rcases h2 with h2 | ⟨he2, hl2⟩
    · exact Or.inl (charsLt_trans h1 h2)
    · exact Or.inl (he2 ▸ h1)
  · rcases h2 with h2 | ⟨he2, hl2⟩
    · exact Or.inl (he1 ▸ h2)
    · exact Or.inr ⟨he1.trans he2, charsLe_trans hl1 hl2⟩

theorem pairLe_total (a b : String × String) :
    pairLe a b = true ∨ pairLe b a = true := by
  simp only [pairLe, Bool.or_eq_true, Bool.and_eq_true, decide_eq_true_eq]
  rcases charsLt_trichotomy a.1.data b.1.data with h | h | h
  · exact Or.inl (Or.inl h)
  · exact Or.inr (Or.inl h)
  · rcases charsLe_total a.2.data b.2.data with h2 | h2
    · exact Or.inl (Or.inr ⟨h, h2⟩)
    · exact Or.inr (Or.inr ⟨h.symm, h2⟩)

/-! ## Directory model and combination generation (`main`, lines 94-132)

A collection directory is its listing: each entry name paired with
`some files` when the entry is a subdirectory (with its own listing of file
names), `none` when it is a plain file.  `os.listdir` returns the names in
unspecified order; the code always passes them through `sorted`. -/

/-- A collection directory listing: entry name, and the entry's own listing
when it is a subdirectory. -/
abbrev Dir := List (String × Option (List String))

/-- Lines 102-106: the facets of a collection — sorted directory entries
that are not hidden and are subdirectories, with their file listings. -/
def facets (c : Dir) : List (String × List String) :=
  ((insSort (fun a b => strLe a.1 b.1) c).filter
    (fun e => !isHidden e.1 && e.2.isSome)).map
    (fun e => (e.1, e.2.getD []))

/-- Lines 109-112: the sorted non-hidden `.yaml` entry names of a facet's
listing — its config snippets. -/
def snippetNames (files : List String) : List String :=
  (insSort strLe files).filter (fun n => !isHidden n && endsWithYaml n)

/-- Lines 107-114: the config triples of one facet — `(facet, name, path)`
for each config snippet, with
`path = os.path.join(collection, facet, name)`. -/
def facetConfigs (collection : String) (f : String) (files : List String) :
    List (String × String × String) :=
  (snippetNames files).map
    (fun n => (f, n, collection ++ "/" ++ f ++ "/" ++ n))

/-- `itertools.product` on a list of lists: the Cartesian product in
standard order, the last list varying fastest (line 115). -/
def cartProd : List (List α) → List (List α)
  | [] => [[]]
  | xs :: rest => xs.flatMap (fun x => (cartProd rest).map (x :: ·))

/-- Lines 107-115: all combinations of one collection, in emission order. -/
def combosOf (path : String) (c : Dir) : List (List (String × String × String)) :=
  cartProd ((facets c).map (fun fc => facetConfigs path fc.1 fc.2))

/-- Line 117-118: the `'{facet}:{name}'` token of one config triple. -/
def tok (t : String × String × String) : String :=
  t.1 ++ ":" ++ t.2.1

/-- Lines 116-119: the job description string of a combination —
`'collection:%s ' % name` followed by `' '.join('{facet}:{name}')`. -/
def mkDescription (collectionName : String)
    (configs : List (String × String × String)) : String :=
  "collection:" ++ collectionName ++ " " ++ joinSep " " (configs.map tok)

/-! ## Scheduler invocations (`main`, lines 80-142) -/

/-- The parsed command-line arguments of the `run` entry point that shape
the scheduler invocations. -/
structure Args where
  name : String
  verbose : Bool
  owner : Option String
  email : Option String
  timeout : Option String
  config : List String
deriving DecidableEq

/-- Lines 80-87: the base argument vector shared by every invocation;
`sched` stands for `os.path.join(os.path.dirname(sys.argv[0]),
'teuthology-schedule')`. -/
def baseArg (sched : String) (args : Args) : List String :=
  [sched, "--name", args.name]
    ++ (if args.verbose then ["-v"] else [])
    ++ (match args.owner with
        | some o => ["--owner", o]
        | none => [])

/-- Lines 123-132: the argument vector of one per-combination invocation. -/
def comboArg (sched : String) (args : Args) (collectionName : String)
    (configs : List (String × String × String)) : List String :=
  baseArg sched args
    ++ ["--description", mkDescription collectionName configs, "--"]
    ++ args.config
    ++ configs.map (fun c => c.2.2)

/-- Lines 134-142: the final invocation carrying `--last-in-suite` and the
optional email / timeout arguments. -/
def lastArg (sched : String) (args : Args) : List String :=
  baseArg sched args ++ ["--last-in-suite"]
    ++ (match args.email with
        | some e => ["--email", e]
        | none => [])
    ++ (match args.timeout with
        | some t => ["--timeout", t]
        | none => [])

/-- Lines 94-100: pair each given collection path with its derived name
`os.path.basename(safepath.munge(path))` and sort the `(path, name)`
tuples.  The `Dir` payload is the path's listing, carried along. -/
def sortColls (colls : List (String × Dir)) :
    List ((String × String) × Dir) :=
  insSort (fun a b => pairLe a.1 b.1)
    (colls.map (fun c => ((c.1, basename (munge c.1)), c.2)))

/-- Lines 100-132: all per-combination invocations of one collection, in
dispatch order. -/
def collectionInvocations (sched : String) (args : Args)
    (path : String) (name : String) (c : Dir) : List (List String) :=
  (combosOf path c).map (comboArg sched args name)

/-- Lines 89-142: the full, ordered list of scheduler invocations of one
run (assuming every `subprocess.check_call` succeeds). -/
def runInvocations (sched : String) (args : Args)
    (colls : List (String × Dir)) : List (List String) :=
  ((sortColls colls).flatMap
    (fun c => collectionInvocations sched args c.1.1 c.1.2 c.2))
    ++ [lastArg sched args]

/-! ## Archive model, result polling and aggregation (`results`, lines 185-329)

An archive directory is a listing of job entries; each entry name is paired
with `some summary` when `<entry>/summary.yaml` exists (holding the merged
YAML fields the code reads), `none` when it does not. -/

/-- The merged content of a `summary.yaml`, restricted to the fields the
code reads.  A `none` field models a key absent from the YAML dictionary
(`summary['...']` raises `KeyError`). -/
structure Summary where
  description : Option String
  success : Option Bool
  failure_reason : Option String
deriving DecidableEq

/-- An archive directory listing: job entry name, and the merged summary
when `summary.yaml` exists for that entry. -/
abbrev Archive := List (String × Option Summary)

/-- The archive listing in Python `sorted` order. -/
def archiveSorted (archive : Archive) : Archive :=
  insSort (fun a b => strLe a.1 b.1) archive

/-- Lines 225-229: the initial still-running set — sorted non-hidden
entries whose `summary.yaml` does not exist. -/
def runningInit (archive : Archive) : List String :=
  ((archiveSorted archive).filter
    (fun e => !isHidden e.1 && e.2.isNone)).map Prod.fst

/-- The sorted non-hidden archive entry names (the poller's candidate set
as the spec words it). -/
def nonHiddenEntries (archive : Archive) : List String :=
  ((archiveSorted archive).filter (fun e => !isHidden e.1)).map Prod.fst

/-- Lines 230-241: the polling loop.  `hasSummary` tells whether an
entry's `summary.yaml` exists (held fixed during the loop in this model);
`elapsed` models `time.time() - starttime` in seconds, advancing by 10 per
sleep; `fuel` bounds the iteration count.  Returns the final
`running_tests` list together with the number of `time.sleep(10)` calls
performed. -/
def pollLoop (hasSummary : String → Bool) (timeout : Int) :
    Nat → Int → List String → List String × Nat
  | 0, _, running => (running, 0)
  | fuel + 1, elapsed, running =>
    if running.isEmpty || !(0 < timeout) then (running, 0)
    else
      match running.getLast? with
      | none => (running, 0)
      | some last =>
        if hasSummary last then
          pollLoop hasSummary timeout fuel elapsed running.dropLast
        else if timeout < elapsed then (running, 0)
        else
          let r := pollLoop hasSummary timeout fuel (elapsed + 10) running
          (r.1, r.2 + 1)

/-- Whether an entry of the archive has a summary, by name. -/
def archiveHasSummary (archive : Archive) (name : String) : Bool :=
  match archive.find? (fun e => e.1 = name) with
  | some e => e.2.isSome
  | none => false

/-- Lines 225-241: the whole polling phase of `results`: build the initial
running set, then run the loop. -/
def pollRun (archive : Archive) (timeout : Int) (fuel : Nat) :
    List String × Nat :=
  pollLoop (archiveHasSummary archive) timeout fuel 0 (runningInit archive)

/-- The mutable aggregation state of lines 257-261. -/
structure Report where
  descriptions : List String
  failures : List String
  num_failures : Nat
  unfinished : List String
  passed : List String
deriving DecidableEq

/-- The initial (empty) aggregation state. -/
def emptyReport : Report :=
  ⟨[], [], 0, [], []⟩

/-- Lines 263-288: processing of one archive entry.  A missing
`description` or `success` key raises `KeyError`, modelled as `Except.error`
aborting the whole aggregation. -/
def aggStep (r : Report) (e : String × Option Summary) :
    Except String Report :=
  if isHidden e.1 then .ok r
  else
    match e.2 with
    | none => .ok { r with unfinished := r.unfinished ++ [e.1] }
    | some s =>
      match s.description with
      | none => .error ("KeyError: description in " ++ e.1)
      | some d =>
        let desc := e.1 ++ ": " ++ d
        let r := { r with descriptions := r.descriptions ++ [desc] }
        match s.success with
        | none => .error ("KeyError: success in " ++ e.1)
        | some true => .ok { r with passed := r.passed ++ [desc] }
        | some false =>
          let r := { r with
            failures := r.failures ++ [desc],
            num_failures := r.num_failures + 1 }
          match s.failure_reason with
          | some reason =>
            .ok { r with failures := r.failures ++ ["    " ++ reason] }
          | none => .ok r

/-- Lines 257-288: the aggregation pass over the sorted archive. -/
def aggregate (archive : Archive) : Except String Report :=
  (archiveSorted archive).foldlM aggStep emptyReport

/-- Line 317: the full-success subject line. -/
def successSubject (suiteName : String) : String :=
  "All tests passed in " ++ suiteName ++ "!"

/-- Lines 294-300: the counts subject line. -/
def countsSubject (suiteName : String) (r : Report) : String :=
  Nat.repr r.num_failures ++ " failed, " ++
    Nat.repr r.unfinished.length ++ " possibly hung, and " ++
    Nat.repr r.passed.length ++ " passed tests in " ++ suiteName

/-- Lines 293-317: the subject of the composed report. -/
def mkSubject (suiteName : String) (r : Report) : String :=
  if !r.failures.isEmpty || !r.unfinished.isEmpty then
    countsSubject suiteName r
  else
    successSubject suiteName

/-! ## Lemmas on the Cartesian product -/

theorem length_cartProd (l : List (List α)) :
    (cartProd l).length = (l.map List.length).prod := by
  induction l with
  | nil => simp [cartProd]
  | cons xs rest ih =>
    simp only [cartProd, List.length_flatMap, List.map_map, List.map_cons,
      List.prod_cons]
    have hc : (List.length ∘ fun x => (cartProd rest).map (x :: ·))
        = fun _ => (cartProd rest).length := by
      funext x; simp
    rw [hc, List.map_const', List.sum_replicate, smul_eq_mul, ih]

theorem mem_cartProd (x : List α) (l : List (List α)) :
    x ∈ cartProd l ↔ List.Forall₂ (· ∈ ·) x l := by
  induction l generalizing x with
  | nil =>
    simp only [cartProd, List.mem_singleton, List.forall₂_nil_right_iff]
  | cons xs rest ih =>
    simp only [cartProd, List.mem_flatMap, List.mem_map]
    constructor
    · rintro ⟨a, ha, t, ht, rfl⟩
      exact List.Forall₂.cons ha ((ih t).mp ht)
    · intro h
      cases h with
      | cons hmem htail =>
        exact ⟨_, hmem, _, (ih _).mpr htail, rfl⟩

theorem cartProd_nodup (l : List (List α)) (h : ∀ xs ∈ l, xs.Nodup) :
    (cartProd l).Nodup := by
  induction l with
  | nil => simp [cartProd]
  | cons xs rest ih =>
    simp only [cartProd]
    rw [List.nodup_flatMap]
    refine ⟨?_, ?_⟩
    · intro x _
      exact (ih (fun ys hys => h ys (List.mem_cons_of_mem _ hys))).map
        (fun _ _ hc => (List.cons.injEq _ _ _ _ ▸ hc).2)
    · have hx : xs.Nodup := h xs (List.mem_cons_self xs rest)
      refine hx.imp ?_
      intro a b hab
      simp only [Function.onFun, List.Disjoint]
      rintro c hca hcb
      rcases List.mem_map.mp hca with ⟨t, _, rfl⟩
      rcases List.mem_map.mp hcb with ⟨t', _, heq⟩
      exact hab ((List.cons.injEq _ _ _ _ ▸ heq.symm).1)

/-- Indexing into a `flatMap` whose pieces all have the same length `m`:
entry `j` is entry `j % m` of piece `j / m`. -/
theorem getElem?_flatMap_const_length (xs : List α) (f : α → List β)
    (m : Nat) (hm : ∀ x, (f x).length = m) (j : Nat) :
    (xs.flatMap f)[j]? = (xs[j / m]?.bind fun x => (f x)[j % m]?) := by
  rcases Nat.eq_zero_or_pos m with rfl | hmpos
  · have hfe : ∀ y, f y = [] := fun y => List.eq_nil_of_length_eq_zero (hm y)
    have hnil : xs.flatMap f = [] := by
      induction xs with
      | nil => rfl
      | cons z zs ihz => simp [List.flatMap_cons, hfe, ihz]
    rw [hnil]
    simp only [Nat.div_zero, Nat.mod_zero, List.getElem?_nil]
    cases h0 : xs[0]? with
    | none => rfl
    | some x => simp [hfe]
  · induction xs generalizing j with
    | nil => simp
    | cons x xs ih =>
      rw [List.flatMap_cons, List.getElem?_append]
      by_cases hj : j < m
      · have h1 : j / m = 0 := Nat.div_eq_of_lt hj
        have h2 : j % m = j := Nat.mod_eq_of_lt hj
        simp [hm, hj, h1, h2]
      · push_neg at hj
        have h1 : j / m = (j - m) / m + 1 := by
          rw [Nat.div_eq_sub_div hmpos hj]
        have h2 : j % m = (j - m) % m := Nat.mod_eq_sub_mod hj
        simp only [hm, if_neg (by omega : ¬ j < m)]
        rw [ih (j - m), h1, h2]
        simp

/-- The combination at flat index `j` of the product of `l`, by
most-significant-first mixed-radix digits of `j`: the head choice is
`j / (product of the remaining lengths)` and the tail recurses on the
remainder — so the LAST list varies fastest. -/
def comboAt? : List (List α) → Nat → Option (List α)
  | [], j => if j = 0 then some [] else none
  | xs :: rest, j =>
    let m := (rest.map List.length).prod
    xs[j / m]?.bind fun x => (comboAt? rest (j % m)).map (x :: ·)

/-- `cartProd` enumerates exactly the mixed-radix order: entry `j` is the
combination whose per-facet choices are the mixed-radix digits of `j`,
last facet varying fastest. -/
theorem cartProd_getElem? (l : List (List α)) (j : Nat) :
    (cartProd l)[j]? = comboAt? l j := by
  induction l generalizing j with
  | nil =>
    rcases j with _ | j
    · rfl
    · rfl
  | cons xs rest ih =>
    simp only [cartProd, comboAt?]
    rw [getElem?_flatMap_const_length xs _ ((rest.map List.length).prod)
      (fun x => by rw [List.length_map, length_cartProd]) j]
    cases xs[j / (rest.map List.length).prod]? with
    | none => simp
    | some x =>
      simp [List.getElem?_map, ih]

/-! ## Injectivity of space-joined token lists -/

/-- Character-level counterpart of `joinSep " "`. -/
def joinSpace : List (List Char) → List Char
  | [] => []
  | [a] => a
  | a :: rest => a ++ ' ' :: joinSpace rest

theorem data_joinSep (l : List String) :
    (joinSep " " l).data = joinSpace (l.map String.data) := by
  induction l with
  | nil => rfl
  | cons a rest ih =>
    cases rest with
    | nil => rfl
    | cons b bs =>
      show ((a ++ " ") ++ joinSep " " (b :: bs)).data = _
      rw [String.data_append, String.data_append, ih]
      simp [joinSpace]

theorem append_space_cons_inj {a b x y : List Char}
    (ha : ' ' ∉ a) (hb : ' ' ∉ b)
    (h : a ++ ' ' :: x = b ++ ' ' :: y) : a = b ∧ x = y := by
  induction a generalizing b with
  | nil =>
    cases b with
    | nil => simpa using h
    | cons c cs =>
      simp only [List.nil_append, List.cons_append, List.cons.injEq] at h
      have hmem : ' ' ∈ c :: cs := by
        rw [h.1]; exact List.mem_cons_self c cs
      exact absurd hmem hb
  | cons c cs ih =>
    cases b with
    | nil =>
      simp only [List.cons_append, List.nil_append, List.cons.injEq] at h
      exact absurd (h.1 ▸ List.mem_cons_self c cs) (h.1 ▸ ha)
    | cons d ds =>
      simp only [List.cons_append, List.cons.injEq] at h
      have := ih (fun hm => ha (List.mem_cons_of_mem c hm))
        (fun hm => hb (List.mem_cons_of_mem d hm)) h.2
      exact ⟨by rw [h.1, this.1], this.2⟩

theorem joinSpace_inj : ∀ (l1 l2 : List (List Char)),
    l1.length = l2.length →
    (∀ t ∈ l1, ' ' ∉ t) → (∀ t ∈ l2, ' ' ∉ t) →
    joinSpace l1 = joinSpace l2 → l1 = l2
  | [], [], _, _, _, _ => rfl
  | [a], [b], _, _, _, h => by rw [show joinSpace [a] = a from rfl,
      show joinSpace [b] = b from rfl] at h; rw [h]
  | a :: a2 :: as, b :: b2 :: bs, hlen, h1, h2, h => by
    have ha : ' ' ∉ a := h1 a (List.mem_cons_self _ _)
    have hb : ' ' ∉ b := h2 b (List.mem_cons_self _ _)
    have h' : a ++ ' ' :: joinSpace (a2 :: as)
        = b ++ ' ' :: joinSpace (b2 :: bs) := h
    obtain ⟨hab, hrest⟩ := append_space_cons_inj ha hb h'
    have htail := joinSpace_inj (a2 :: as) (b2 :: bs)
      (by simpa using hlen)
      (fun t ht => h1 t (List.mem_cons_of_mem _ ht))
      (fun t ht => h2 t (List.mem_cons_of_mem _ ht)) hrest
    rw [hab, htail]

theorem joinSep_space_inj (l1 l2 : List String)
    (hlen : l1.length = l2.length)
    (h1 : ∀ t ∈ l1, ' ' ∉ t.data) (h2 : ∀ t ∈ l2, ' ' ∉ t.data)
    (h : joinSep " " l1 = joinSep " " l2) : l1 = l2 := by
  have hd : joinSpace (l1.map String.data) = joinSpace (l2.map String.data) := by
    rw [← data_joinSep, ← data_joinSep, h]
  have := joinSpace_inj (l1.map String.data) (l2.map String.data)
    (by simp [hlen])
    (by intro t ht; rcases List.mem_map.mp ht with ⟨s, hs, rfl⟩; exact h1 s hs)
    (by intro t ht; rcases List.mem_map.mp ht with ⟨s, hs, rfl⟩; exact h2 s hs)
    hd
  exact List.map_injective_iff.mpr (fun _ _ hab => String.ext hab) this

/-! ## Properties of facets and config triples -/

theorem str_append_right_inj (a : String) {x y : String}
    (h : a ++ x = a ++ y) : x = y := by
  have : a.data ++ x.data = a.data ++ y.data := by
    rw [← String.data_append, ← String.data_append, h]
  exact String.ext (List.append_cancel_left this)

theorem mem_facets {fc : String × List String} {c : Dir}
    (h : fc ∈ facets c) : ∃ e ∈ c, e.2 = some fc.2 ∧ fc.1 = e.1 := by
  simp only [facets, List.mem_map, List.mem_filter] at h
  obtain ⟨e, ⟨hmem, hcond⟩, rfl⟩ := h
  have he : e ∈ c := ((insSort_perm _ c).mem_iff).mp hmem
  rcases e with ⟨n, fo⟩
  cases fo with
  | none => simp at hcond
  | some files => exact ⟨(n, some files), he, rfl, rfl⟩

theorem mem_facetConfigs {t : String × String × String}
    {p f : String} {files : List String} (h : t ∈ facetConfigs p f files) :
    ∃ n ∈ snippetNames files, t = (f, n, p ++ "/" ++ f ++ "/" ++ n) := by
  simp only [facetConfigs, List.mem_map] at h
  obtain ⟨n, hn, rfl⟩ := h
  exact ⟨n, hn, rfl⟩

theorem snippetNames_sublist_mem {files : List String} {n : String}
    (h : n ∈ snippetNames files) : n ∈ files := by
  have := List.mem_filter.mp h
  exact ((insSort_perm strLe files).mem_iff).mp this.1

theorem snippetNames_nodup {files : List String} (h : files.Nodup) :
    (snippetNames files).Nodup :=
  ((insSort_perm strLe files).symm.nodup h).filter _

theorem facetConfigs_nodup {p f : String} {files : List String}
    (h : files.Nodup) : (facetConfigs p f files).Nodup :=
  (snippetNames_nodup h).map_on (fun n1 _ n2 _ heq => by
    have := congrArg (fun t : String × String × String => t.2.1) heq
    simpa using this)

theorem tok_inj_on_facetConfigs {p f : String} {files : List String}
    {t1 t2 : String × String × String}
    (h1 : t1 ∈ facetConfigs p f files) (h2 : t2 ∈ facetConfigs p f files)
    (h : tok t1 = tok t2) : t1 = t2 := by
  obtain ⟨n1, _, rfl⟩ := mem_facetConfigs h1
  obtain ⟨n2, _, rfl⟩ := mem_facetConfigs h2
  simp only [tok] at h
  have hn : n1 = n2 := str_append_right_inj (f ++ ":") h
  rw [hn]

/-- Token lists determine the combination, for combinations drawn from the
same list of facet-config lists on which `tok` is injective. -/
theorem combo_eq_of_tok_eq :
    ∀ (ll : List (List (String × String × String)))
      (c1 c2 : List (String × String × String)),
    List.Forall₂ (· ∈ ·) c1 ll → List.Forall₂ (· ∈ ·) c2 ll →
    (∀ ys ∈ ll, ∀ t1 ∈ ys, ∀ t2 ∈ ys, tok t1 = tok t2 → t1 = t2) →
    c1.map tok = c2.map tok → c1 = c2 := by
  intro ll c1 c2 hf1 hf2 hinj hmap
  induction hf1 generalizing c2 with
  | nil =>
    cases hf2 with
    | nil => rfl
  | @cons t1 ys c1' ll' hmem1 _ ih =>
    cases hf2 with
    | @cons t2 _ c2' _ hmem2 htail2 =>
      simp only [List.map_cons, List.cons.injEq] at hmap
      have hhead : t1 = t2 :=
        hinj ys (List.mem_cons_self _ _) t1 hmem1 t2 hmem2 hmap.1
      have htail : c1' = c2' :=
        ih c2' htail2
          (fun zs hzs => hinj zs (List.mem_cons_of_mem _ hzs)) hmap.2
      rw [hhead, htail]

theorem forall₂_mem_left {c : List α} {ll : List (List α)} {x : α}
    (h : List.Forall₂ (· ∈ ·) c ll) (hx : x ∈ c) :
    ∃ ys ∈ ll, x ∈ ys := by
  induction h with
  | nil => cases hx
  | cons hmem _ ih =>
    rcases List.mem_cons.mp hx with rfl | hx
    · exact ⟨_, List.mem_cons_self _ _, hmem⟩
    · obtain ⟨ys, hys, hxys⟩ := ih hx
      exact ⟨ys, List.mem_cons_of_mem _ hys, hxys⟩

/-! ## Claim C1 -/

/-- C1: the claim's distinctness half fails on the code once facet or
snippet names contain spaces, because the space-joined description is then
ambiguous.  Collection directory realizing this: facet `f` holds snippets
`a.yaml` and `a.yaml g:b.yaml`, facet `g` holds `b.yaml g:c.yaml` and
`c.yaml`. -/
def c1cexDir : Dir :=
  [("f", some ["a.yaml", "a.yaml g:b.yaml"]),
   ("g", some ["b.yaml g:c.yaml", "c.yaml"])]

/-- C1 counterexample: on `c1cexDir` the generator does emit `2 × 2`
combinations, but two of the four emitted `JobDescription` strings
coincide (`collection:basic f:a.yaml g:b.yaml g:c.yaml`), so the strings
are not pairwise distinct and the claim as stated is false. -/
theorem c1_descriptions_not_distinct :
    ((combosOf "c" c1cexDir).map (mkDescription "basic")).length = 2 * 2
    ∧ ¬ ((combosOf "c" c1cexDir).map (mkDescription "basic")).Pairwise
        (· ≠ ·) := by
  constructor
  · rfl
  · intro h
    have h03 : ((combosOf "c" c1cexDir).map (mkDescription "basic")).Nodup :=
      h
    revert h03
    decide

/-- C1 (amended): for every collection whose facet listings are duplicate
free and whose facet and snippet names contain no space character, the
generator emits exactly `k1 × k2 × ... × kn` combinations (`ki` the number
of non-hidden `.yaml` snippets of the `i`-th sorted facet), and the
`JobDescription` strings built from them are pairwise distinct. -/
theorem c1_combo_count_and_descriptions_distinct
    (path nm : String) (c : Dir)
    (hnodup : ∀ e ∈ c, (e.2.getD []).Nodup)
    (hspace : ∀ e ∈ c, ' ' ∉ e.1.data ∧ ∀ n ∈ e.2.getD [], ' ' ∉ n.data) :
    (combosOf path c).length
        = ((facets c).map (fun fc => (snippetNames fc.2).length)).prod
    ∧ ((combosOf path c).map (mkDescription nm)).Nodup := by
  have hfacet_files : ∀ fc ∈ facets c, fc.2.Nodup ∧ ' ' ∉ fc.1.data ∧
      ∀ n ∈ fc.2, ' ' ∉ n.data := by
    intro fc hfc
    obtain ⟨e, he, hsome, hfst⟩ := mem_facets hfc
    have hget : e.2.getD [] = fc.2 := by rw [hsome]; rfl
    refine ⟨hget ▸ hnodup e he, hfst ▸ (hspace e he).1, ?_⟩
    intro n hn
    exact (hspace e he).2 n (hget ▸ hn)
  set ll := (facets c).map (fun fc => facetConfigs path fc.1 fc.2) with hll
  have hys : ∀ ys ∈ ll, ∃ fc ∈ facets c, ys = facetConfigs path fc.1 fc.2 := by
    intro ys hysm
    rcases List.mem_map.mp hysm with ⟨fc, hfc, rfl⟩
    exact ⟨fc, hfc, rfl⟩
  constructor
  · rw [combosOf, ← hll, length_cartProd, hll, List.map_map]
    congr 1
    refine List.map_congr_left ?_
    intro fc _
    simp [Function.comp, facetConfigs]
  · apply List.Nodup.map_on
    · intro x hx y hy hdesc
      have hf1 : List.Forall₂ (· ∈ ·) x ll := (mem_cartProd x ll).mp hx
      have hf2 : List.Forall₂ (· ∈ ·) y ll := (mem_cartProd y ll).mp hy
      have hjoin : joinSep " " (x.map tok) = joinSep " " (y.map tok) :=
        str_append_right_inj ("collection:" ++ nm ++ " ") hdesc
      have hsp : ∀ (z : List (String × String × String)),
          List.Forall₂ (· ∈ ·) z ll → ∀ t ∈ z.map tok, ' ' ∉ t.data := by
        intro z hz t ht
        rcases List.mem_map.mp ht with ⟨tr, htr, rfl⟩
        obtain ⟨ys, hysm, htrys⟩ := forall₂_mem_left hz htr
        obtain ⟨fc, hfc, rfl⟩ := hys ys hysm
        obtain ⟨n, hnm, rfl⟩ := mem_facetConfigs htrys
        obtain ⟨_, hfsp, hnsp⟩ := hfacet_files fc hfc
        simp only [tok, String.data_append, List.mem_append]
        rintro ((h | h) | h)
        · exact hfsp h
        · simp only [show (":" : String).data = [':'] from rfl,
            List.mem_singleton] at h
          cases h
        · exact hnsp n (snippetNames_sublist_mem hnm) h
      have hmapeq : x.map tok = y.map tok :=
        joinSep_space_inj (x.map tok) (y.map tok)
          (by rw [List.length_map, List.length_map, hf1.length_eq,
            hf2.length_eq])
          (hsp x hf1) (hsp y hf2) hjoin
      refine combo_eq_of_tok_eq ll x y hf1 hf2 ?_ hmapeq
      intro ys hysm t1 ht1 t2 ht2 htok
      obtain ⟨fc, _, rfl⟩ := hys ys hysm
      exact tok_inj_on_facetConfigs ht1 ht2 htok
    · apply cartProd_nodup
      intro xs hxs
      obtain ⟨fc, hfc, rfl⟩ := hys xs hxs
      exact facetConfigs_nodup (hfacet_files fc hfc).1

/-- Witness collection for C1 (the spec's `basic` scenario). -/
def c1wDir : Dir :=
  [("clusters", some ["fixed.yaml", "three.yaml"]),
   ("tasks", some ["smoke.yaml"])]

theorem c1_combo_count_and_descriptions_distinct_witness :
    (combosOf "basic" c1wDir).length
        = ((facets c1wDir).map (fun fc => (snippetNames fc.2).length)).prod
    ∧ ((combosOf "basic" c1wDir).map (mkDescription "basic")).Nodup :=
  c1_combo_count_and_descriptions_distinct "basic" "basic" c1wDir
    (by decide) (by decide)

/-! ## Claim C2 -/

/-- C2: combinations are emitted in standard Cartesian-product order over
the sorted facets, the last facet varying fastest: entry `j` of the
product is the most-significant-first mixed-radix decomposition of `j`
(`comboAt?`), and the `basic` scenario (facets `clusters` =
`{fixed.yaml, three.yaml}`, `tasks` = `{smoke.yaml}`) yields exactly the
two stated descriptions, in that order, with the collection name derived
by `basename(munge(...))`.  The generator is a pure function of the
listing, so repeated generation on unchanged input is identical. -/
theorem c2_product_order_and_scenario :
    (∀ (l : List (List (String × String × String))) (j : Nat),
        (cartProd l)[j]? = comboAt? l j)
    ∧ (combosOf "basic" c1wDir).map
        (mkDescription (basename (munge "basic")))
      = ["collection:basic clusters:fixed.yaml tasks:smoke.yaml",
         "collection:basic clusters:three.yaml tasks:smoke.yaml"] :=
  ⟨fun l j => cartProd_getElem? l j, by decide⟩

/-! ## Claim C3 -/

/-- Two collection directories whose path order disagrees with their
sanitized-name order. -/
def c3cexColls : List (String × Dir) :=
  [("a/d", []), ("b/c", [])]

/-- C3 counterexample: `sorted(collections)` sorts the `(path, name)`
tuples, so the path dominates: the collection at path `a/d` (sanitized
name `d`) is processed before the one at path `b/c` (sanitized name `c`)
although `c < d` — the processing order of sanitized names is `[d, c]`,
not ascending, refuting the claim. -/
theorem c3_not_sorted_by_sanitized_name :
    ((sortColls c3cexColls).map (fun e => e.1.2) = ["d", "c"])
    ∧ charsLt "c".data "d".data = true := by
  constructor
  · rfl
  · rfl

/-- C3 (amended): for every run invocation, collections are processed in
ascending lexicographic order of their `(path, sanitized name)` tuples —
primarily by the path as given on the command line — independent of the
order in which they were given, and each given collection is processed
exactly once. -/
theorem c3_sorted_by_path_name_pairs (colls : List (String × Dir)) :
    ((sortColls colls).map (fun e => e.1)).Pairwise
        (fun a b => pairLe a b = true)
    ∧ List.Perm (sortColls colls)
        (colls.map (fun e => ((e.1, basename (munge e.1)), e.2))) := by
  constructor
  · refine List.Pairwise.map
      (R := fun (a b : (String × String) × Dir) => pairLe a.1 b.1 = true)
      (fun e => e.1) (fun a b h => h) ?_
    exact insSort_pairwise
      (fun (a b : (String × String) × Dir) => pairLe a.1 b.1)
      (fun a b c h1 h2 => pairLe_trans h1 h2)
      (fun a b => pairLe_total a.1 b.1) _
  · exact insSort_perm _ _

/-! ## Claim C4 -/

theorem slash_mem_joined (p f n : String) :
    '/' ∈ (p ++ "/" ++ f ++ "/" ++ n).data := by
  simp only [String.data_append, List.mem_append]
  left; left; left
  right
  simp [show ("/" : String).data = ['/'] from rfl]

theorem flag_no_slash : '/' ∉ ("--last-in-suite" : String).data := by
  decide

theorem joined_path_ne_flag (p f n : String) :
    p ++ "/" ++ f ++ "/" ++ n ≠ "--last-in-suite" := by
  intro h
  exact flag_no_slash (h ▸ slash_mem_joined p f n)

theorem mkDescription_ne_flag (nm : String)
    (cfg : List (String × String × String)) :
    mkDescription nm cfg ≠ "--last-in-suite" := by
  intro h
  have hd := congrArg String.data h
  rw [show ("--last-in-suite" : String).data
      = '-' :: "-last-in-suite".data from rfl] at hd
  simp only [mkDescription, String.data_append,
    show ("collection:" : String).data
      = 'c' :: "ollection:".data from rfl] at hd
  simp at hd

theorem flag_not_mem_comboArg (sched : String) (args : Args) (nm : String)
    (cfg : List (String × String × String))
    (hsched : sched ≠ "--last-in-suite")
    (hname : args.name ≠ "--last-in-suite")
    (howner : ∀ o, args.owner = some o → o ≠ "--last-in-suite")
    (hconf : "--last-in-suite" ∉ args.config)
    (hpaths : ∀ t ∈ cfg, ∃ p f n, t.2.2 = p ++ "/" ++ f ++ "/" ++ n) :
    "--last-in-suite" ∉ comboArg sched args nm cfg := by
  intro hmem
  rcases List.mem_append.mp hmem with h | h
  rcases List.mem_append.mp h with h | h
  rcases List.mem_append.mp h with h | h
  · -- inside baseArg
    rcases List.mem_append.mp h with h | h
    rcases List.mem_append.mp h with h | h
    · rcases List.mem_cons.mp h with h | h
      · exact hsched h.symm
      rcases List.mem_cons.mp h with h | h
      · exact absurd h (by decide)
      rcases List.mem_cons.mp h with h | h
      · exact hname h.symm
      · cases h
    · revert h
      split
      · intro h; exact absurd h (by decide)
      · intro h; cases h
    · revert h
      cases hargs : args.owner with
      | some o =>
        intro h
        rcases List.mem_cons.mp h with h | h
        · exact absurd h (by decide)
        rcases List.mem_cons.mp h with h | h
        · exact howner o hargs h.symm
        · cases h
      | none => intro h; cases h
  · -- ["--description", desc, "--"]
    rcases List.mem_cons.mp h with h | h
    · exact absurd h (by decide)
    rcases List.mem_cons.mp h with h | h
    · exact mkDescription_ne_flag nm cfg h.symm
    rcases List.mem_cons.mp h with h | h
    · exact absurd h (by decide)
    · cases h
  · exact hconf h
  · -- the snippet paths
    rcases List.mem_map.mp h with ⟨t, ht, heq⟩
    obtain ⟨p, f, n, hp⟩ := hpaths t ht
    exact joined_path_ne_flag p f n (hp ▸ heq)

/-- C4: when every scheduler invocation succeeds, a run issues exactly
(sum over the given collections of their combination counts) + 1
invocations; the extra one comes after all per-combination invocations
(it is the final list element) and is the only one whose argument vector
carries `--last-in-suite` (with the optional `--email`/`--timeout`
arguments).  The hypotheses rule out the degenerate case of the literal
string `--last-in-suite` being passed as the suite name, owner, scheduler
path or an extra config path. -/
theorem c4_invocation_count_and_last_flag
    (sched : String) (args : Args) (colls : List (String × Dir))
    (hsched : sched ≠ "--last-in-suite")
    (hname : args.name ≠ "--last-in-suite")
    (howner : ∀ o, args.owner = some o → o ≠ "--last-in-suite")
    (hconf : "--last-in-suite" ∉ args.config) :
    (runInvocations sched args colls).length
        = (colls.map (fun e => (combosOf e.1 e.2).length)).sum + 1
    ∧ (runInvocations sched args colls).getLast?
        = some (lastArg sched args)
    ∧ "--last-in-suite" ∈ lastArg sched args
    ∧ ∀ inv ∈ (runInvocations sched args colls).dropLast,
        "--last-in-suite" ∉ inv := by
  refine ⟨?_, ?_, ?_, ?_⟩
  · rw [runInvocations, List.length_append, List.length_flatMap]
    simp only [List.length_cons, List.length_nil, Nat.zero_add]
    congr 1
    have hperm : List.Perm (sortColls colls)
        (colls.map (fun e => ((e.1, basename (munge e.1)), e.2))) :=
      insSort_perm _ _
    have hsum := (hperm.map
      (List.length ∘ fun c =>
        collectionInvocations sched args c.1.1 c.1.2 c.2)).sum_eq
    rw [hsum, List.map_map]
    refine congrArg List.sum (List.map_congr_left ?_)
    intro e _
    simp [Function.comp, collectionInvocations]
  · rw [runInvocations, List.getLast?_concat]
  · simp [lastArg, List.mem_append]
  · rw [runInvocations, List.dropLast_concat]
    intro inv hinv
    rcases List.mem_flatMap.mp hinv with ⟨c, _, hc⟩
    rcases List.mem_map.mp hc with ⟨cfg, hcfg, rfl⟩
    refine flag_not_mem_comboArg sched args c.1.2 cfg hsched hname howner
      hconf ?_
    intro t ht
    have hf : List.Forall₂ (· ∈ ·) cfg
        ((facets c.2).map (fun fc => facetConfigs c.1.1 fc.1 fc.2)) :=
      (mem_cartProd cfg _).mp hcfg
    obtain ⟨ys, hysm, htys⟩ := forall₂_mem_left hf ht
    rcases List.mem_map.mp hysm with ⟨fc, _, rfl⟩
    obtain ⟨n, _, rfl⟩ := mem_facetConfigs htys
    exact ⟨c.1.1, fc.1, n, rfl⟩

theorem c4_invocation_count_and_last_flag_witness :
    (runInvocations "teuthology-schedule"
        ⟨"mysuite", false, none, none, none, []⟩ [("basic", c1wDir)]).length
      = ([("basic", c1wDir)].map
          (fun e => (combosOf e.1 e.2).length)).sum + 1
    ∧ (runInvocations "teuthology-schedule"
        ⟨"mysuite", false, none, none, none, []⟩ [("basic", c1wDir)]).getLast?
      = some (lastArg "teuthology-schedule"
          ⟨"mysuite", false, none, none, none, []⟩)
    ∧ "--last-in-suite" ∈ lastArg "teuthology-schedule"
        ⟨"mysuite", false, none, none, none, []⟩
    ∧ ∀ inv ∈ (runInvocations "teuthology-schedule"
        ⟨"mysuite", false, none, none, none, []⟩
        [("basic", c1wDir)]).dropLast,
        "--last-in-suite" ∉ inv :=
  c4_invocation_count_and_last_flag "teuthology-schedule"
    ⟨"mysuite", false, none, none, none, []⟩ [("basic", c1wDir)]
    (by decide) (by decide) (by intro o h; cases h) (by decide)

/-! ## Claim C5 -/

theorem cartProd_eq_nil_of_mem_nil {ll : List (List α)}
    (h : [] ∈ ll) : cartProd ll = [] := by
  induction ll with
  | nil => cases h
  | cons xs rest ih =>
    rcases List.mem_cons.mp h with rfl | h
    · rfl
    · simp [cartProd, ih h]

/-- C5: a facet with zero config snippets makes the collection's
cross-product empty, so no per-combination invocation is issued for that
collection (an empty result, not an error); a collection with zero facets
yields exactly one combination with the empty snippet list, dispatched as
one job whose description is `collection:<name> ` — the collection name
and no facet pairs. -/
theorem c5_empty_facet_and_zero_facets
    (sched : String) (args : Args) (path nm : String) (c : Dir) :
    ((∃ fc ∈ facets c, snippetNames fc.2 = []) →
      combosOf path c = []
      ∧ collectionInvocations sched args path nm c = [])
    ∧ (facets c = [] →
      combosOf path c = [[]]
      ∧ collectionInvocations sched args path nm c
          = [comboArg sched args nm []]
      ∧ mkDescription nm [] = "collection:" ++ nm ++ " ") := by
  constructor
  · rintro ⟨fc, hfc, hempty⟩
    have hnil : combosOf path c = [] := by
      apply cartProd_eq_nil_of_mem_nil
      have : facetConfigs path fc.1 fc.2 = [] := by
        rw [facetConfigs, hempty]; rfl
      exact this ▸ List.mem_map_of_mem _ hfc
    exact ⟨hnil, by rw [collectionInvocations, hnil]; rfl⟩
  · intro hnf
    have h1 : combosOf path c = [[]] := by
      rw [combosOf, hnf]; rfl
    refine ⟨h1, by rw [collectionInvocations, h1]; rfl, ?_⟩
    show ("collection:" ++ nm ++ " ") ++ joinSep " " [] = _
    rw [show joinSep " " ([] : List String) = "" from rfl]
    exact String.append_empty _

/-- A collection with a facet holding no config snippets. -/
def c5aDir : Dir := [("f", some [])]

/-- A collection with zero facets (only a hidden entry and a plain file). -/
def c5bDir : Dir := [(".git", some []), ("readme", none)]

theorem c5_empty_facet_and_zero_facets_witness :
    (combosOf "p" c5aDir = []
      ∧ collectionInvocations "s" ⟨"n", false, none, none, none, []⟩
          "p" "b" c5aDir = [])
    ∧ (combosOf "p" c5bDir = [[]]
      ∧ collectionInvocations "s" ⟨"n", false, none, none, none, []⟩
          "p" "b" c5bDir
        = [comboArg "s" ⟨"n", false, none, none, none, []⟩ "b" []]
      ∧ mkDescription "b" [] = "collection:" ++ "b" ++ " ") :=
  ⟨(c5_empty_facet_and_zero_facets "s" ⟨"n", false, none, none, none, []⟩
      "p" "b" c5aDir).1 (by decide),
   (c5_empty_facet_and_zero_facets "s" ⟨"n", false, none, none, none, []⟩
      "p" "b" c5bDir).2 (by decide)⟩

/-! ## Claim C6 -/

/-- An archive whose single entry already has its summary artifact. -/
def c6cexArchive : Archive := [("1", some ⟨some "d", some true, none⟩)]

/-- C6 counterexample: with timeout 0 the poller does return immediately
without sleeping, but it does not return the full candidate set of all
non-hidden archive entries: entry `1` has a summary, is filtered out
before the loop ever runs, and the returned still-running set is empty
although the candidate set is `["1"]`. -/
theorem c6_not_full_candidate_set :
    pollRun c6cexArchive 0 5 = ([], 0)
    ∧ nonHiddenEntries c6cexArchive = ["1"] := by
  constructor
  · rfl
  · rfl

/-- C6 (amended): for every timeout ≤ 0 (including the default 0) and any
iteration bound, the poller returns immediately — performing zero sleeps —
with the still-running set exactly the sorted non-hidden entries whose
summary artifact does not exist at call time. -/
theorem c6_nonpositive_timeout_returns_immediately
    (archive : Archive) (timeout : Int) (fuel : Nat)
    (h : timeout ≤ 0) :
    pollRun archive timeout fuel = (runningInit archive, 0) := by
  rw [pollRun]
  cases fuel with
  | zero => rfl
  | succ n =>
    have hb : decide (0 < timeout) = false :=
      decide_eq_false (by omega)
    simp [pollLoop, hb]

/-- An archive with one finished and one unfinished job. -/
def c6wArchive : Archive :=
  [("2", none), ("1", some ⟨some "d", some false, some "r"⟩)]

theorem c6_nonpositive_timeout_returns_immediately_witness :
    pollRun c6wArchive 0 3 = (runningInit c6wArchive, 0) :=
  c6_nonpositive_timeout_returns_immediately c6wArchive 0 3 (by decide)

/-! ## Aggregation classifiers and fold characterization -/

/-- A non-hidden entry whose summary artifact exists but lacks a required
field (`description` or `success`): processing it raises `KeyError`. -/
def malformedEntry (e : String × Option Summary) : Bool :=
  !isHidden e.1 && e.2.isSome &&
    ((e.2.bind Summary.description).isNone
      || (e.2.bind Summary.success).isNone)

/-- A non-hidden entry whose summary artifact exists. -/
def isFinished (e : String × Option Summary) : Bool :=
  !isHidden e.1 && e.2.isSome

/-- A non-hidden entry with no summary artifact. -/
def isUnfinished (e : String × Option Summary) : Bool :=
  !isHidden e.1 && e.2.isNone

/-- A non-hidden entry whose summary reports `success: false`. -/
def isFailed (e : String × Option Summary) : Bool :=
  !isHidden e.1 && (e.2.bind Summary.success == some false)

/-- A failed entry whose summary also carries a `failure_reason`. -/
def hasFailureReason (e : String × Option Summary) : Bool :=
  isFailed e && (e.2.bind Summary.failure_reason).isSome

/-- A non-hidden entry whose summary reports `success: true`. -/
def isPassed (e : String × Option Summary) : Bool :=
  !isHidden e.1 && (e.2.bind Summary.success == some true)

/-- The `'{test}: {desc}'` line of line 275. -/
def descLine (e : String × Option Summary) : String :=
  e.1 ++ ": " ++ ((e.2.bind Summary.description).getD "")

theorem agg_fold_error_of_malformed :
    ∀ (entries : List (String × Option Summary)) (r0 : Report),
      (∃ e ∈ entries, malformedEntry e = true) →
      (entries.foldlM aggStep r0).toOption = none := by
  intro entries
  induction entries with
  | nil => rintro r0 ⟨e, he, _⟩; cases he
  | cons e es ih =>
    rintro r0 ⟨e', he', hmal⟩
    rw [List.foldlM_cons]
    rcases List.mem_cons.mp he' with rfl | he'
    · have hstep : ∃ msg, aggStep r0 e' = .error msg := by
        rcases e' with ⟨nm, so⟩
        simp only [malformedEntry, Bool.and_eq_true, Bool.not_eq_true',
          Bool.or_eq_true] at hmal
        obtain ⟨⟨hh, hsome⟩, hmiss⟩ := hmal
        rcases so with _ | s
        · simp at hsome
        · simp only [Option.some_bind] at hmiss
          simp only [aggStep, hh, Bool.false_eq_true, if_false]
          cases hd : s.description with
          | none => exact ⟨_, rfl⟩
          | some d =>
            cases hs : s.success with
            | none => exact ⟨_, rfl⟩
            | some b =>
              rw [hd, hs] at hmiss
              simp at hmiss
      obtain ⟨msg, hmsg⟩ := hstep
      rw [hmsg]
      rfl
    · cases hstep : aggStep r0 e with
      | error msg => rfl
      | ok r1 => exact ih r1 ⟨e', he', hmal⟩

/-- C7's processing model: every `ok` result of the fold is fully
determined by the classifiers above. -/
theorem agg_fold_ok_char :
    ∀ (entries : List (String × Option Summary)) (r0 r : Report),
      entries.foldlM aggStep r0 = .ok r →
      r.descriptions
          = r0.descriptions ++ (entries.filter isFinished).map descLine
      ∧ r.num_failures
          = r0.num_failures + (entries.filter isFailed).length
      ∧ r.failures.length
          = r0.failures.length + (entries.filter isFailed).length
            + (entries.filter hasFailureReason).length
      ∧ r.unfinished
          = r0.unfinished ++ (entries.filter isUnfinished).map Prod.fst
      ∧ r.passed
          = r0.passed ++ (entries.filter isPassed).map descLine := by
  intro entries
  induction entries with
  | nil =>
    intro r0 r h
    rw [List.foldlM_nil] at h
    cases h
    simp
  | cons e es ih =>
    intro r0 r h
    rw [List.foldlM_cons] at h
    rcases e with ⟨nm, so⟩
    by_cases hhid : isHidden nm = true
    · have hstep : aggStep r0 (nm, so) = .ok r0 := by
        simp [aggStep, hhid]
      rw [hstep] at h
      have h' : es.foldlM aggStep r0 = Except.ok r := h
      obtain ⟨h1, h2, h3, h4, h5⟩ := ih r0 r h'
      refine ⟨?_, ?_, ?_, ?_, ?_⟩
      · simpa [List.filter_cons, isFinished, hhid] using h1
      · simpa [List.filter_cons, isFailed, hhid] using h2
      · simpa [List.filter_cons, isFailed, hasFailureReason, hhid] using h3
      · simpa [List.filter_cons, isUnfinished, hhid] using h4
      · simpa [List.filter_cons, isPassed, hhid] using h5
    · have hh : isHidden nm = false := by simpa using hhid
      cases so with
      | none =>
        have hstep : aggStep r0 (nm, none)
            = .ok { r0 with unfinished := r0.unfinished ++ [nm] } := by
          simp [aggStep, hh]
        rw [hstep] at h
        have h' : es.foldlM aggStep
            { r0 with unfinished := r0.unfinished ++ [nm] }
            = Except.ok r := h
        obtain ⟨h1, h2, h3, h4, h5⟩ := ih _ r h'
        refine ⟨?_, ?_, ?_, ?_, ?_⟩
        · simpa [List.filter_cons, isFinished, hh] using h1
        · simpa [List.filter_cons, isFailed, hh] using h2
        · simpa [List.filter_cons, isFailed, hasFailureReason, hh] using h3
        · rw [h4]
          simp [List.filter_cons, isUnfinished, hh]
        · simpa [List.filter_cons, isPassed, hh] using h5
      | some s =>
        cases hd : s.description with
        | none =>
          rw [show aggStep r0 (nm, some s) = .error
              ("KeyError: description in " ++ nm) by
            simp [aggStep, hh, hd]] at h
          cases h
        | some d =>
          cases hs : s.success with
          | none =>
            rw [show aggStep r0 (nm, some s) = .error
                ("KeyError: success in " ++ nm) by
              simp [aggStep, hh, hd, hs]] at h
            cases h
          | some b =>
            cases b with
            | true =>
              have hstep : aggStep r0 (nm, some s) = .ok
                  { r0 with
                    descriptions := r0.descriptions ++ [nm ++ ": " ++ d],
                    passed := r0.passed ++ [nm ++ ": " ++ d] } := by
                simp [aggStep, hh, hd, hs]
              rw [hstep] at h
              have h' : es.foldlM aggStep
                  { r0 with
                    descriptions := r0.descriptions ++ [nm ++ ": " ++ d],
                    passed := r0.passed ++ [nm ++ ": " ++ d] }
                  = Except.ok r := h
              obtain ⟨h1, h2, h3, h4, h5⟩ := ih _ r h'
              refine ⟨?_, ?_, ?_, ?_, ?_⟩
              · rw [h1]
                simp [List.filter_cons, isFinished, hh, descLine, hd]
              · simpa [List.filter_cons, isFailed, hh, hs] using h2
              · simpa [List.filter_cons, isFailed, hasFailureReason, hh,
                  hs] using h3
              · simpa [List.filter_cons, isUnfinished, hh] using h4
              · rw [h5]
                simp [List.filter_cons, isPassed, hh, hs, descLine, hd]
            | false =>
              cases hr : s.failure_reason with
              | none =>
                have hstep : aggStep r0 (nm, some s) = .ok
                    { r0 with
                      descriptions := r0.descriptions ++ [nm ++ ": " ++ d],
                      failures := r0.failures ++ [nm ++ ": " ++ d],
                      num_failures := r0.num_failures + 1 } := by
                  simp [aggStep, hh, hd, hs, hr]
                rw [hstep] at h
                have h' : es.foldlM aggStep
                    { r0 with
                      descriptions := r0.descriptions ++ [nm ++ ": " ++ d],
                      failures := r0.failures ++ [nm ++ ": " ++ d],
                      num_failures := r0.num_failures + 1 }
                    = Except.ok r := h
                obtain ⟨h1, h2, h3, h4, h5⟩ := ih _ r h'
                refine ⟨?_, ?_, ?_, ?_, ?_⟩
                · rw [h1]
                  simp [List.filter_cons, isFinished, hh, descLine, hd]
                · rw [h2]
                  simp [List.filter_cons, isFailed, hh, hs]
                  omega
                · rw [h3]
                  simp [List.filter_cons, isFailed, hasFailureReason, hh,
                    hs, hr]
                  omega
                · simpa [List.filter_cons, isUnfinished, hh] using h4
                · simpa [List.filter_cons, isPassed, hh, hs] using h5
              | some reason =>
                have hstep : aggStep r0 (nm, some s) = .ok
                    { r0 with
                      descriptions := r0.descriptions ++ [nm ++ ": " ++ d],
                      failures := r0.failures ++ [nm ++ ": " ++ d]
                        ++ ["    " ++ reason],
                      num_failures := r0.num_failures + 1 } := by
                  simp [aggStep, hh, hd, hs, hr]
                rw [hstep] at h
                have h' : es.foldlM aggStep
                    { r0 with
                      descriptions := r0.descriptions ++ [nm ++ ": " ++ d],
                      failures := r0.failures ++ [nm ++ ": " ++ d]
                        ++ ["    " ++ reason],
                      num_failures := r0.num_failures + 1 }
                    = Except.ok r := h
                obtain ⟨h1, h2, h3, h4, h5⟩ := ih _ r h'
                refine ⟨?_, ?_, ?_, ?_, ?_⟩
                · rw [h1]
                  simp [List.filter_cons, isFinished, hh, descLine, hd]
                · rw [h2]
                  simp [List.filter_cons, isFailed, hh, hs]
                  omega
                · rw [h3]
                  simp [List.filter_cons, isFailed, hasFailureReason, hh,
                    hs, hr]
                  omega
                · simpa [List.filter_cons, isUnfinished, hh] using h4
                · simpa [List.filter_cons, isPassed, hh, hs] using h5

/-! ## Claim C7 -/

/-- An archive whose first job's summary lacks the `success` field and
whose second job is fine. -/
def c7cexArchive : Archive :=
  [("1", some ⟨some "d", none, none⟩),
   ("2", some ⟨some "e", some true, none⟩)]

/-- C7 counterexample: a present summary missing the required `success`
field does NOT degrade to a per-job error — `summary['success']` raises
`KeyError` and the whole aggregation aborts; no report is produced at all,
not even for the remaining well-formed job `2`. -/
theorem c7_missing_field_aborts_globally :
    aggregate c7cexArchive = .error "KeyError: success in 1" := by
  rfl

/-- C7 (amended): whenever some archive entry's summary artifact is
present but lacks a required field (`success` or `description`), the
aggregation aborts globally with an error — it produces no report at all
(the source raises `KeyError`, as the spec's §9 open question records). -/
theorem c7_malformed_summary_aborts (archive : Archive)
    (h : ∃ e ∈ archive, malformedEntry e = true) :
    (aggregate archive).toOption = none := by
  rw [aggregate]
  apply agg_fold_error_of_malformed
  obtain ⟨e, he, hm⟩ := h
  exact ⟨e, ((insSort_perm _ archive).mem_iff).mpr he, hm⟩

/-- An archive with one summary lacking its `description` field. -/
def c7wArchive : Archive := [("x", some ⟨none, some true, none⟩)]

theorem c7_malformed_summary_aborts_witness :
    (aggregate c7wArchive).toOption = none :=
  c7_malformed_summary_aborts c7wArchive (by decide)

/-! ## Claim C8 -/

/-- An archive with one finished and one unfinished job. -/
def c8cexArchive : Archive :=
  [("1", some ⟨some "d", some true, none⟩), ("2", none)]

/-- C8 counterexample: the unfinished job `2` is classified (it lands in
the unfinished list) but contributes NO line to the descriptions list —
only finished jobs do.  On this archive the report classifies two jobs
yet `descriptions` holds a single line, and no line is of the form
`2: <description>`. -/
theorem c8_unfinished_job_has_no_description_line :
    aggregate c8cexArchive = .ok ⟨["1: d"], [], 0, ["2"], ["1: d"]⟩
    ∧ ∀ l ∈ (["1: d"] : List String),
        ("2: ").data.isPrefixOf l.data = false := by
  constructor
  · rfl
  · decide

/-- C8 (amended): in every aggregation run that completes, exactly the
finished (non-hidden, summary-present) jobs contribute one line
`<jobId>: <description>` each to the descriptions list, in archive sort
order; unfinished jobs contribute no line. -/
theorem c8_descriptions_cover_finished_jobs (archive : Archive) (r : Report)
    (h : aggregate archive = .ok r) :
    r.descriptions
      = ((archiveSorted archive).filter isFinished).map descLine := by
  rw [aggregate] at h
  have hch := agg_fold_ok_char (archiveSorted archive) emptyReport r h
  simpa [emptyReport] using hch.1

/-- An archive with a passed, an unfinished, and a failed job. -/
def c8wArchive : Archive :=
  [("2", none), ("1", some ⟨some "d", some true, none⟩),
   ("3", some ⟨some "e", some false, some "boom"⟩)]

theorem c8_descriptions_cover_finished_jobs_witness :
    (⟨["1: d", "3: e"], ["3: e", "    boom"], 1, ["2"], ["1: d"]⟩
      : Report).descriptions
      = ((archiveSorted c8wArchive).filter isFinished).map descLine :=
  c8_descriptions_cover_finished_jobs c8wArchive
    ⟨["1: d", "3: e"], ["3: e", "    boom"], 1, ["2"], ["1: d"]⟩ (by rfl)

/-! ## Digit-string facts (for the subject-line claim) -/

theorem digitChar_ne_A : ∀ (m : Nat), Nat.digitChar m ≠ 'A'
  | 0 => by decide
  | 1 => by decide
  | 2 => by decide
  | 3 => by decide
  | 4 => by decide
  | 5 => by decide
  | 6 => by decide
  | 7 => by decide
  | 8 => by decide
  | 9 => by decide
  | 10 => by decide
  | 11 => by decide
  | 12 => by decide
  | 13 => by decide
  | 14 => by decide
  | 15 => by decide
  | n + 16 => by
    have hk : ∀ k, k < 16 → ¬ (n + 16 = k) := by omega
    unfold Nat.digitChar
    rw [if_neg (hk 0 (by omega)), if_neg (hk 1 (by omega)),
      if_neg (hk 2 (by omega)), if_neg (hk 3 (by omega)),
      if_neg (hk 4 (by omega)), if_neg (hk 5 (by omega)),
      if_neg (hk 6 (by omega)), if_neg (hk 7 (by omega)),
      if_neg (hk 8 (by omega)), if_neg (hk 9 (by omega)),
      if_neg (hk 10 (by omega)), if_neg (hk 11 (by omega)),
      if_neg (hk 12 (by omega)), if_neg (hk 13 (by omega)),
      if_neg (hk 14 (by omega)), if_neg (hk 15 (by omega))]
    decide

theorem toDigitsCore_length (b : Nat) : ∀ (fuel n : Nat) (ds : List Char),
    ds.length ≤ (Nat.toDigitsCore b fuel n ds).length := by
  intro fuel
  induction fuel with
  | zero => intro n ds; simp [Nat.toDigitsCore]
  | succ f ih =>
    intro n ds
    simp only [Nat.toDigitsCore]
    split
    · simp
    · exact le_trans (by simp) (ih _ _)

theorem toDigitsCore_ne_nil (b fuel n : Nat) (ds : List Char) :
    Nat.toDigitsCore b (fuel + 1) n ds ≠ [] := by
  simp only [Nat.toDigitsCore]
  split
  · simp
  · intro hcon
    have hlen := toDigitsCore_length b fuel (n / b)
      ((n % b).digitChar :: ds)
    rw [hcon] at hlen
    simp at hlen

theorem toDigitsCore_mem (b : Nat) : ∀ (fuel n : Nat) (ds : List Char)
    (c : Char), c ∈ Nat.toDigitsCore b fuel n ds →
    c ∈ ds ∨ ∃ m, c = Nat.digitChar m := by
  intro fuel
  induction fuel with
  | zero =>
    intro n ds c h
    simp only [Nat.toDigitsCore] at h
    exact Or.inl h
  | succ f ih =>
    intro n ds c h
    simp only [Nat.toDigitsCore] at h
    split at h
    · rcases List.mem_cons.mp h with rfl | h
      · exact Or.inr ⟨_, rfl⟩
      · exact Or.inl h
    · rcases ih _ _ c h with h2 | h2
      · rcases List.mem_cons.mp h2 with rfl | h2
        · exact Or.inr ⟨_, rfl⟩
        · exact Or.inl h2
      · exact Or.inr h2

theorem repr_data_ne_nil (n : Nat) : (Nat.repr n).data ≠ [] := by
  show Nat.toDigitsCore 10 (n + 1) n [] ≠ []
  exact toDigitsCore_ne_nil 10 n n []

theorem repr_head_ne_A (n : Nat) (c : Char) (cs : List Char)
    (h : (Nat.repr n).data = c :: cs) : c ≠ 'A' := by
  rintro rfl
  have hm : 'A' ∈ Nat.toDigitsCore 10 (n + 1) n [] := by
    show 'A' ∈ (Nat.repr n).data
    rw [h]
    exact List.mem_cons_self _ _
  rcases toDigitsCore_mem 10 (n + 1) n [] 'A' hm with h2 | ⟨m, h2⟩
  · cases h2
  · exact digitChar_ne_A m h2.symm

theorem countsSubject_ne_successSubject (nm : String) (r : Report) :
    countsSubject nm r ≠ successSubject nm := by
  intro h
  have hd := congrArg String.data h
  simp only [countsSubject, successSubject, String.data_append,
    List.append_assoc,
    show ("All tests passed in " : String).data
      = 'A' :: "ll tests passed in ".data from rfl] at hd
  cases hrepr : (Nat.repr r.num_failures).data with
  | nil => exact repr_data_ne_nil _ hrepr
  | cons c cs =>
    rw [hrepr] at hd
    simp only [List.cons_append, List.cons.injEq] at hd
    exact repr_head_ne_A _ c cs hrepr hd.1

/-! ## Claim C9 -/

/-- C9: the composed report carries the full-success subject exactly when
both the failures list and the unfinished list are empty; in every other
case it carries the counts subject (failed / possibly hung / passed). -/
theorem c9_success_subject_iff (nm : String) (r : Report) :
    (mkSubject nm r = successSubject nm
        ↔ r.failures = [] ∧ r.unfinished = [])
    ∧ (¬ (r.failures = [] ∧ r.unfinished = []) →
        mkSubject nm r = countsSubject nm r) := by
  by_cases hboth : r.failures = [] ∧ r.unfinished = []
  · have hm : mkSubject nm r = successSubject nm := by
      simp [mkSubject, hboth.1, hboth.2]
    exact ⟨⟨fun _ => hboth, fun _ => hm⟩, fun hcon => absurd hboth hcon⟩
  · have hcond : (!r.failures.isEmpty || !r.unfinished.isEmpty) = true := by
      simp only [Bool.or_eq_true, Bool.not_eq_true']
      rcases not_and_or.mp hboth with hf | hu
      · left
        cases hfe : r.failures.isEmpty
        · rfl
        · exact absurd (List.isEmpty_iff.mp hfe) hf
      · right
        cases hue : r.unfinished.isEmpty
        · rfl
        · exact absurd (List.isEmpty_iff.mp hue) hu
    have hm : mkSubject nm r = countsSubject nm r := by
      rw [mkSubject, if_pos hcond]
    refine ⟨⟨fun h => ?_, fun hb => absurd hb hboth⟩, fun _ => hm⟩
    exact absurd (hm ▸ h) (countsSubject_ne_successSubject nm r)

theorem c9_success_subject_iff_witness :
    mkSubject "s" ⟨["1: d"], ["1: d"], 1, [], []⟩
      = countsSubject "s" ⟨["1: d"], ["1: d"], 1, [], []⟩ :=
  (c9_success_subject_iff "s" ⟨["1: d"], ["1: d"], 1, [], []⟩).2
    (by simp)

/-! ## Claim C10 -/

/-- C10: in every aggregation run that completes, the failed count the
email subject reports (`num_failures`) equals the number of failed jobs,
while the failures list used for the body is longer by exactly one
indented line per failed job carrying a `failure_reason` — the reason
lines never inflate the reported count. -/
theorem c10_failed_count_not_inflated (archive : Archive) (r : Report)
    (h : aggregate archive = .ok r) :
    r.num_failures = ((archiveSorted archive).filter isFailed).length
    ∧ r.failures.length = r.num_failures
        + ((archiveSorted archive).filter hasFailureReason).length := by
  rw [aggregate] at h
  obtain ⟨_, h2, h3, _, _⟩ := agg_fold_ok_char (archiveSorted archive)
    emptyReport r h
  have h2' : r.num_failures
      = ((archiveSorted archive).filter isFailed).length := by
    simpa [emptyReport] using h2
  have h3' : r.failures.length
      = ((archiveSorted archive).filter isFailed).length
        + ((archiveSorted archive).filter hasFailureReason).length := by
    simpa [emptyReport] using h3
  exact ⟨h2', by omega⟩

theorem c10_failed_count_not_inflated_witness :
    (⟨["1: d", "3: e"], ["3: e", "    boom"], 1, ["2"], ["1: d"]⟩
        : Report).num_failures
      = ((archiveSorted c8wArchive).filter isFailed).length
    ∧ (⟨["1: d", "3: e"], ["3: e", "    boom"], 1, ["2"], ["1: d"]⟩
        : Report).failures.length
      = (⟨["1: d", "3: e"], ["3: e", "    boom"], 1, ["2"], ["1: d"]⟩
          : Report).num_failures
        + ((archiveSorted c8wArchive).filter hasFailureReason).length :=
  c10_failed_count_not_inflated c8wArchive
    ⟨["1: d", "3: e"], ["3: e", "    boom"], 1, ["2"], ["1: d"]⟩ (by rfl)

end Suite
